import Mathlib

/-!
Verification development for the span bibliographic conversion pipeline.

The Go sources are embedded shallowly: pure functions become Lean functions,
machine integers become `Nat`/`Int` with explicit wrapping where int64
overflow matters, and fallible code returns `Option`/`Except`/error sums.
-/

namespace Span

/-! ## Batcher (`Crossref.Iterate`, `Genios.Iterate`)

Both iterators run the same accumulation loop: append the decoded item to the
current batch; when the count since the last flush reaches the batch size,
send the batch and reset; at end of input, send the current accumulator
unconditionally (the final send is not guarded by a non-emptiness test). -/

def batchLoop (B : Nat) : List α → List α → List (List α)
  | [], acc => [acc]
  | x :: xs, acc =>
    let acc' := acc ++ [x]
    if acc'.length = B then acc' :: batchLoop B xs [] else batchLoop B xs acc'

/-- `BatchSize` constant of the crossref source. -/
def crossrefBatchSize : Nat := 25000

/-- `batchSize` constant of the genios source. -/
def geniosBatchSize : Nat := 2000

/-- Batching behaviour of `Crossref.Iterate`, abstracted over the decoded
line stream: the list of batches sent on the output channel, in order. -/
def crossrefIterate (lines : List α) : List (List α) :=
  batchLoop crossrefBatchSize lines []

/-- Batching behaviour of `Genios.Iterate` over the decoded document stream. -/
def geniosIterate (docs : List α) : List (List α) :=
  batchLoop geniosBatchSize docs []

theorem batchLoop_ne_nil (B : Nat) (l acc : List α) : batchLoop B l acc ≠ [] := by
  induction l generalizing acc with
  | nil => simp [batchLoop]
  | cons x xs ih =>
    simp only [batchLoop]
    split
    · simp
    · exact ih (acc ++ [x])

theorem length_append_singleton (acc : List α) (x : α) :
    (acc ++ [x]).length = acc.length + 1 := by simp

theorem batchLoop_sum_lengths (B : Nat) (l acc : List α) :
    ((batchLoop B l acc).map List.length).sum = acc.length + l.length := by
  induction l generalizing acc with
  | nil => simp [batchLoop]
  | cons x xs ih =>
    simp only [batchLoop]
    split
    · simp only [List.map_cons, List.sum_cons, ih]
      simp only [length_append_singleton, List.length_nil, List.length_cons]
      omega
    · rw [ih]
      simp only [length_append_singleton, List.length_cons]
      omega

theorem batchLoop_length (B : Nat) (l acc : List α) (h : acc.length < B) :
    (batchLoop B l acc).length = (acc.length + l.length) / B + 1 := by
  induction l generalizing acc with
  | nil => simp [batchLoop, Nat.div_eq_of_lt h]
  | cons x xs ih =>
    have hB : 0 < B := Nat.pos_of_ne_zero (by omega)
    simp only [batchLoop]
    split
    · rename_i hfl
      rw [length_append_singleton] at hfl
      have h0 : ([] : List α).length < B := by simpa using hB
      rw [List.length_cons, ih _ h0]
      simp only [List.length_nil, List.length_cons, Nat.zero_add]
      have harg : acc.length + (xs.length + 1) = xs.length + B := by omega
      rw [harg, Nat.add_div_right _ hB]
    · rename_i hfl
      rw [length_append_singleton] at hfl
      have hlt : (acc ++ [x]).length < B := by rw [length_append_singleton]; omega
      rw [ih _ hlt, length_append_singleton, List.length_cons]
      have e : acc.length + 1 + xs.length = acc.length + (xs.length + 1) := by omega
      rw [e]

theorem batchLoop_getLastD (B : Nat) (l acc : List α) (h : acc.length < B) :
    ((batchLoop B l acc).getLastD []).length = (acc.length + l.length) % B := by
  induction l generalizing acc with
  | nil => simpa [batchLoop] using (Nat.mod_eq_of_lt h).symm
  | cons x xs ih =>
    have hB : 0 < B := Nat.pos_of_ne_zero (by omega)
    simp only [batchLoop]
    split
    · rename_i hfl
      rw [length_append_singleton] at hfl
      have h0 : ([] : List α).length < B := by simpa using hB
      rw [List.getLastD_cons]
      cases hrest : batchLoop B xs ([] : List α) with
      | nil => exact absurd hrest (batchLoop_ne_nil B xs [])
      | cons b bs =>
        have hih := ih ([] : List α) h0
        rw [hrest, List.getLastD_cons] at hih
        rw [List.getLastD_cons, hih]
        simp only [List.length_nil, List.length_cons, Nat.zero_add]
        have harg : acc.length + (xs.length + 1) = xs.length + B := by omega
        rw [harg, Nat.add_mod_right]
    · rename_i hfl
      rw [length_append_singleton] at hfl
      have hlt : (acc ++ [x]).length < B := by rw [length_append_singleton]; omega
      rw [ih _ hlt, length_append_singleton, List.length_cons]
      have e : acc.length + 1 + xs.length = acc.length + (xs.length + 1) := by omega
      rw [e]

theorem batchLoop_dropLast (B : Nat) (l acc : List α) (h : acc.length < B) :
    ∀ b ∈ (batchLoop B l acc).dropLast, b.length = B := by
  induction l generalizing acc with
  | nil => simp [batchLoop]
  | cons x xs ih =>
    have hB : 0 < B := Nat.pos_of_ne_zero (by omega)
    simp only [batchLoop]
    split
    · rename_i hfl
      have h0 : ([] : List α).length < B := by simpa using hB
      intro b hb
      cases hrest : batchLoop B xs ([] : List α) with
      | nil => exact absurd hrest (batchLoop_ne_nil B xs [])
      | cons c cs =>
        rw [hrest, List.dropLast_cons₂] at hb
        rcases List.mem_cons.mp hb with hb | hb
        · exact hb ▸ hfl
        · exact ih ([] : List α) h0 b (by rw [hrest]; exact hb)
    · rename_i hfl
      rw [length_append_singleton] at hfl
      have hlt : (acc ++ [x]).length < B := by rw [length_append_singleton]; omega
      exact ih _ hlt

/-! ## Go string primitives used by the embedded functions -/

/-- `unicode.IsSpace` on the code points reachable here. -/
def goIsSpace (c : Char) : Bool :=
  c == ' ' || c == '\t' || c == '\n' || c == '\x0b' || c == '\x0c' || c == '\r' ||
  c == '\x85' || c == '\xa0'

/-- `strings.TrimSpace` on a character list. -/
def trimSpace (l : List Char) : List Char :=
  ((l.dropWhile goIsSpace).reverse.dropWhile goIsSpace).reverse

/-- `strings.TrimSpace` on strings. -/
def trimSpaceStr (s : String) : String := ⟨trimSpace s.data⟩

/-- `strings.ToUpper` ASCII action (no character relevant to the checks in
this repository maps into the accepted alphabets from outside ASCII). -/
def toUpperStr (s : String) : String := ⟨s.data.map Char.toUpper⟩

/-- `strings.ToLower` ASCII action. -/
def toLowerStr (s : String) : String := ⟨s.data.map Char.toLower⟩

/-- `strings.HasPrefix s pre`: `pre` is a prefix of `s`. -/
def hasPrefixStr (s pre : String) : Bool := pre.data.isPrefixOf s.data

/-! ## ISSN validation (`issn.go`) -/

/-- The `strings.NewReplacer("-", "", " ", "")` pass of `ISSN.Validate`. -/
def issnReplace (l : List Char) : List Char :=
  l.filter fun c => !(c == '-' || c == ' ')

/-- The regular expression `^[0-9]{7}[0-9X]$`, applied to a list already
known to have length 8 by the preceding length check. -/
def issnPatternMatch (l : List Char) : Bool :=
  l.length == 8 && (l.take 7).all Char.isDigit &&
    (match l.getLast? with
     | some c => c.isDigit || c == 'X'
     | none => false)

/-- `ISSN.Validate`: `none` models a nil error, `some` the `ErrInvalidISSN`
value. The local `t` of the Go code is written out twice. -/
def issnValidate (s : String) : Option String :=
  if (trimSpace ((issnReplace s.data).map Char.toUpper)).length ≠ 8 then
    some "invalid ISSN"
  else if issnPatternMatch (trimSpace ((issnReplace s.data).map Char.toUpper)) then
    none
  else some "invalid ISSN"

/-- The validity condition in the claim's own words: after removing all
hyphens and spaces, trimming whitespace and uppercasing, the string is
exactly 8 characters: 7 digits followed by a digit or `X`. -/
def issnSpecValid (s : String) : Prop :=
  ∃ ds c, (trimSpace (issnReplace s.data)).map Char.toUpper = ds ++ [c] ∧
    ds.length = 7 ∧ (∀ d ∈ ds, d.isDigit) ∧ (c.isDigit ∨ c = 'X')

/-- Value of an ISSN check character (`X` counts 10). -/
def issnDigitVal (c : Char) : Nat := if c = 'X' then 10 else c.toNat - '0'.toNat

/-- The ISO 3297 check-digit condition: the weighted sum with weights
8,7,…,2,1 is divisible by 11. `ISSN.Validate` never computes this. -/
def issnChecksumOk (l : List Char) : Bool :=
  (List.zipWith (fun c w => issnDigitVal c * w) l [8, 7, 6, 5, 4, 3, 2, 1]).sum % 11 == 0

/-! ## Holdings (`holdings/ovid.go`) -/

/-- A single OVID entitlement. -/
structure Entitlement where
  Status : String := ""
  URL : String := ""
  Anchor : String := ""
  FromYear : Int := 0
  FromVolume : Int := 0
  FromIssue : Int := 0
  FromDelay : String := ""
  ToYear : Int := 0
  ToVolume : Int := 0
  ToIssue : Int := 0
  ToDelay : String := ""
  deriving Repr, DecidableEq

/-- A single holding. -/
structure Holding where
  EZBID : Int := 0
  Title : String := ""
  Publishers : String := ""
  PISSN : List String := []
  EISSN : List String := []
  Entitlements : List Entitlement := []
  deriving Repr, DecidableEq

/-- math.MaxInt64, the `strconv.Atoi` ceiling on 64-bit platforms. -/
def maxInt64 : Nat := 9223372036854775807

/-- One hour in nanoseconds (`time.Duration` counts nanoseconds). -/
def hourNs : Int := 3600000000000

/-- Largest whole number of hours representable as a `time.Duration`:
`(2^63 - 1) / hourNs`. `time.ParseDuration` rejects anything larger. -/
def maxHours : Nat := 2562047

/-- Two's-complement int64 wrap-around of Go `int` multiplication. -/
def wrapInt64 (x : Int) : Int := (x + 2 ^ 63) % 2 ^ 64 - 2 ^ 63

/-- Numeric value of a digit string, as accumulated by `strconv.Atoi`. -/
def digitsVal (ds : List Char) : Nat :=
  ds.foldl (fun n c => n * 10 + (c.toNat - '0'.toNat)) 0

/-- The regular expression `^-(\d+)(M|Y)$` of `DelayPattern` on a character
list: the greedy digit run after the minus sign must be followed by exactly
one unit character. Returns the two capture groups on a match. -/
def delayMatchL : List Char → Option (List Char × Char)
  | c :: rest =>
    if c = '-' then
      match rest.dropWhile Char.isDigit with
      | [u] =>
        if rest.takeWhile Char.isDigit ≠ [] ∧ (u = 'M' ∨ u = 'Y') then
          some (rest.takeWhile Char.isDigit, u)
        else none
      | _ => none
    else none
  | [] => none

/-- `DelayPattern.FindStringSubmatch`, anchored form. -/
def delayMatch (s : String) : Option (List Char × Char) := delayMatchL s.data

/-- Hours per unit: `value*8760` for years, `value*720` for months. -/
def multOf (u : Char) : Nat := if u = 'Y' then 8760 else 720

/-- `ParseDelay`. On a regexp match, `strconv.Atoi` fails beyond int64 range
(that error is returned); the hour count is then formatted with
`fmt.Sprintf("-%dh", value*mult)` (the product wraps as Go `int`) and fed to
`time.ParseDuration`, whose error — syntactic for a wrapped-negative count,
out-of-range above `maxHours` — is discarded by the final `return d, nil`,
leaving the zero duration. -/
def parseDelay (s : String) : Except String Int :=
  match delayMatch s with
  | none => .error ("unknown format: " ++ s)
  | some (ds, u) =>
    let n := digitsVal ds
    if n > maxInt64 then .error "value out of range"
    else
      let w := wrapInt64 ((n : Int) * (multOf u : Int))
      .ok (if 0 ≤ w ∧ w ≤ (maxHours : Int) then -(w * hourNs) else 0)

/-- `Entitlement.Delay`: a non-empty `FromDelay` is parsed and returned; only
otherwise is `ToDelay` consulted; the zero duration if both are empty. -/
def entitlementDelay (e : Entitlement) : Except String Int :=
  if e.FromDelay ≠ "" then parseDelay e.FromDelay
  else if e.ToDelay ≠ "" then parseDelay e.ToDelay
  else .ok 0

/-- Single-key overwrite `h[id] = item` on the Go map, modelled as a
function. -/
def mapSet (m : String → Option Holding) (k : String) (v : Holding) :
    String → Option Holding :=
  fun k' => if k' = k then some v else m k'

/-- One inner loop of `HoldingsMap`: assign `item` to every id in `ids`. -/
def insertIds (m : String → Option Holding) (ids : List String) (item : Holding) :
    String → Option Holding :=
  ids.foldl (fun m id => mapSet m id item) m

/-- `HoldingsMap` over the sequence of decoded `holding` elements in document
order: for each element, its e-ISSNs are assigned first, then its p-ISSNs. -/
def holdingsMap (hs : List Holding) : String → Option Holding :=
  hs.foldl (fun m item => insertIds (insertIds m item.EISSN item) item.PISSN item)
    (fun _ => none)

/-- An element lists `issn` when it occurs among its e-ISSNs or p-ISSNs. -/
def listsIssn (issn : String) (h : Holding) : Bool :=
  issn ∈ h.EISSN || issn ∈ h.PISSN

/-! ## Claim C1: mismatch of begin/end delays -/

/-- C1: the spec (and the repository's own `TestDelay`) requires that an
entitlement carrying two different non-empty delays is a hard mismatch
error; `Entitlement.Delay` instead silently returns the parse of
`FromDelay`: on `FromDelay = "-1M"`, `ToDelay = "-2M"` it succeeds with the
one-month duration. -/
theorem delay_mismatch_silently_resolved :
    entitlementDelay { FromDelay := "-1M", ToDelay := "-2M" } =
      Except.ok (-2592000000000000) := by
  rfl

/-! ## Claim C2/C3: batch counts -/

/-- C2 counterexample: on the empty input stream the crossref iterator
yields one (empty) batch, while `ceil(0 / B) = 0` batches were claimed. -/
theorem batcher_empty_stream_yields_one_batch :
    (crossrefIterate ([] : List String)).length = 1 ∧
    ((0 : Nat) + crossrefBatchSize - 1) / crossrefBatchSize = 0 := by
  exact ⟨rfl, by decide⟩

/-- C2 amended: for batch size `B > 0` and `N` input records the batching
loop yields `⌊N/B⌋ + 1` batches (one more than `⌈N/B⌉` when `B ∣ N`,
including `N = 0`), whose item counts sum to exactly `N`, the final batch
holding `N mod B` items. `crossrefIterate` and `geniosIterate` are its
instances at `B = 25000` and `B = 2000`. -/
theorem batcher_floor_plus_one (B : Nat) (hB : 0 < B) (l : List α) :
    (batchLoop B l []).length = l.length / B + 1 ∧
    ((batchLoop B l []).map List.length).sum = l.length ∧
    ((batchLoop B l []).getLastD []).length = l.length % B := by
  have h0 : ([] : List α).length < B := by simpa using hB
  refine ⟨?_, ?_, ?_⟩
  · simpa using batchLoop_length B l [] h0
  · simpa using batchLoop_sum_lengths B l []
  · simpa using batchLoop_getLastD B l [] h0

theorem batcher_floor_plus_one_witness :
    (batchLoop 2 [0, 1, 2] ([] : List Nat)).length = [0, 1, 2].length / 2 + 1 ∧
    ((batchLoop 2 [0, 1, 2] ([] : List Nat)).map List.length).sum = [0, 1, 2].length ∧
    ((batchLoop 2 [0, 1, 2] ([] : List Nat)).getLastD []).length = [0, 1, 2].length % 2 := by
  exact batcher_floor_plus_one 2 (by decide) [0, 1, 2]

/-- C3 counterexample: the empty input stream makes the crossref iterator
send a batch containing zero items (the unconditional final send). -/
theorem batcher_yields_empty_batch_on_empty_input :
    crossrefIterate ([] : List String) = [[]] ∧ ([] : List String).length = 0 := by
  exact ⟨rfl, rfl⟩

/-- C3 amended: every batch except the final one holds exactly `B` items,
and the final batch is empty exactly when the record count is a multiple of
`B` — in particular a zero-item batch is yielded for empty input and for
input whose size is a positive multiple of `B`. -/
theorem batcher_empty_batch_iff_multiple (B : Nat) (hB : 0 < B) (l : List α) :
    (∀ b ∈ (batchLoop B l []).dropLast, b.length = B) ∧
    (((batchLoop B l []).getLastD []).length = 0 ↔ l.length % B = 0) := by
  have h0 : ([] : List α).length < B := by simpa using hB
  refine ⟨batchLoop_dropLast B l [] h0, ?_⟩
  rw [batchLoop_getLastD B l [] h0]
  simp

theorem batcher_empty_batch_iff_multiple_witness :
    ((batchLoop 2 [0, 1] ([] : List Nat)).getLastD []).length = 0 := by
  exact ((batcher_empty_batch_iff_multiple 2 (by decide) [0, 1]).2).mpr (by decide)

/-! ## Character-level facts for the ISSN normalization -/

theorem char_toNat_ofNat_of_lt {m : Nat} (h : m < 0xd800) :
    (Char.ofNat m).toNat = m := by
  rw [Char.ofNat, dif_pos (Or.inl h)]
  rfl

theorem char_eq_iff_toNat {c d : Char} : c = d ↔ c.toNat = d.toNat := by
  constructor
  · intro h; rw [h]
  · intro h
    rw [← Char.ofNat_toNat c, ← Char.ofNat_toNat d, h]

theorem goIsSpace_iff (c : Char) :
    goIsSpace c = true ↔
      (c.toNat = 32 ∨ c.toNat = 9 ∨ c.toNat = 10 ∨ c.toNat = 11 ∨
       c.toNat = 12 ∨ c.toNat = 13 ∨ c.toNat = 133 ∨ c.toNat = 160) := by
  unfold goIsSpace
  simp only [Bool.or_eq_true, beq_iff_eq]
  constructor
  · rintro (((((((h | h) | h) | h) | h) | h) | h) | h) <;>
      rw [char_eq_iff_toNat] at h <;> simp_all
  · rintro (h | h | h | h | h | h | h | h) <;>
      simp [char_eq_iff_toNat, h]

theorem goIsSpace_toUpper (c : Char) : goIsSpace c.toUpper = goIsSpace c := by
  by_cases h : c.toNat ≥ 97 ∧ c.toNat ≤ 122
  · have hup : c.toUpper = Char.ofNat (c.toNat - 32) := by
      simp only [Char.toUpper]
      rw [if_pos h]
    have ht : (Char.ofNat (c.toNat - 32)).toNat = c.toNat - 32 :=
      char_toNat_ofNat_of_lt (by omega)
    have h1 : goIsSpace (Char.ofNat (c.toNat - 32)) = false := by
      rw [Bool.eq_false_iff]
      intro hsp
      have := (goIsSpace_iff _).mp hsp
      rw [ht] at this
      omega
    have h2 : goIsSpace c = false := by
      rw [Bool.eq_false_iff]
      intro hsp
      have := (goIsSpace_iff _).mp hsp
      omega
    rw [hup, h1, h2]
  · have hup : c.toUpper = c := by
      simp only [Char.toUpper]
      rw [if_neg h]
    rw [hup]

theorem dropWhile_map_toUpper (l : List Char) :
    (l.map Char.toUpper).dropWhile goIsSpace =
      (l.dropWhile goIsSpace).map Char.toUpper := by
  induction l with
  | nil => rfl
  | cons c cs ih =>
    simp only [List.map_cons, List.dropWhile_cons, goIsSpace_toUpper]
    split
    · exact ih
    · rfl

theorem trimSpace_map_toUpper (l : List Char) :
    trimSpace (l.map Char.toUpper) = (trimSpace l).map Char.toUpper := by
  unfold trimSpace
  rw [dropWhile_map_toUpper, ← List.map_reverse, dropWhile_map_toUpper,
    ← List.map_reverse]

theorem issnPattern_iff_shape (u : List Char) :
    (u.length = 8 ∧ issnPatternMatch u = true) ↔
      (∃ ds c, u = ds ++ [c] ∧ ds.length = 7 ∧ (∀ d ∈ ds, d.isDigit) ∧
        (c.isDigit ∨ c = 'X')) := by
  constructor
  · rintro ⟨hlen, hpat⟩
    have hne : u ≠ [] := by
      intro h; rw [h] at hlen; simp at hlen
    refine ⟨u.dropLast, u.getLast hne, (u.dropLast_append_getLast hne).symm, ?_, ?_, ?_⟩
    · rw [List.length_dropLast, hlen]
    · intro d hd
      unfold issnPatternMatch at hpat
      simp only [Bool.and_eq_true, List.all_eq_true] at hpat
      refine hpat.1.2 d ?_
      rw [List.dropLast_eq_take, hlen] at hd
      simpa using hd
    · unfold issnPatternMatch at hpat
      simp only [Bool.and_eq_true] at hpat
      have := hpat.2
      rw [List.getLast?_eq_getLast u hne] at this
      simp only [Bool.or_eq_true, beq_iff_eq] at this
      exact this
  · rintro ⟨ds, c, hu, hds, hdig, hc⟩
    have hlen : u.length = 8 := by rw [hu]; simp [hds]
    refine ⟨hlen, ?_⟩
    unfold issnPatternMatch
    rw [hu]
    simp only [Bool.and_eq_true, List.all_eq_true]
    refine ⟨⟨by simp [hds], ?_⟩, ?_⟩
    · intro d hd
      apply hdig
      have : (ds ++ [c]).take 7 = ds := by
        rw [← hds]; exact List.take_left ds [c]
      rw [this] at hd
      exact hd
    · rw [List.getLast?_concat]
      simp only [Bool.or_eq_true, beq_iff_eq]
      exact hc

/-- C9: `ISSN.Validate` accepts exactly the strings whose normalization
(hyphens and spaces removed, whitespace trimmed, uppercased) is 7 digits
followed by a digit or `X`; the ISO check digit is never verified, so the
checksum-invalid `"11111111"` validates. -/
theorem issn_validate_syntactic_only :
    (∀ s, issnValidate s = none ↔ issnSpecValid s) ∧
    issnValidate "11111111" = none ∧
    issnChecksumOk "11111111".data = false := by
  refine ⟨?_, by rfl, by rfl⟩
  intro s
  unfold issnValidate issnSpecValid
  rw [trimSpace_map_toUpper]
  constructor
  · intro h
    split_ifs at h with h1 h2
    · have := (issnPattern_iff_shape _).mp ⟨by omega, h2⟩
      exact this
  · rintro hshape
    have := (issnPattern_iff_shape ((trimSpace (issnReplace s.data)).map Char.toUpper)).mpr hshape
    split_ifs with h1 h2
    · omega
    · rfl
    · rw [this.2] at h2
      exact absurd rfl h2

/-! ## Claim C4: page-range parsing (`parsePages`, genderopen) -/

/-- The character class `[1-9]`. -/
def nzDigit (c : Char) : Bool := c.isDigit && !(c == '0')

/-- A match attempt of `([1-9][0-9]*)-([1-9][0-9]*)` anchored at the head of
the list: the first group is the maximal digit run from the head (no shorter
run can be followed by `-`, since the blocking character is itself a digit),
then `-`, then the second group's maximal digit run. -/
def pagesMatchAt : List Char → Option (List Char × List Char)
  | c :: rest =>
    if nzDigit c then
      match rest.dropWhile Char.isDigit with
      | d :: e :: rest2 =>
        if d = '-' && nzDigit e then
          some (c :: rest.takeWhile Char.isDigit, e :: rest2.takeWhile Char.isDigit)
        else none
      | _ => none
    else none
  | [] => none

/-- `FindStringSubmatch`: the leftmost match, found by attempting a match at
every position from the left. -/
def pagesScan : List Char → Option (List Char × List Char)
  | [] => none
  | c :: rest =>
    match pagesMatchAt (c :: rest) with
    | some r => some r
    | none => pagesScan rest

/-- `strconv.Atoi` on a captured digit string, with its error discarded as
`parsePages` does: beyond int64 the clamped `math.MaxInt64` is used. -/
def pageAtoi (ds : List Char) : Int := ((min (digitsVal ds) maxInt64 : Nat) : Int)

/-- `parsePages`: empty triple when the pattern does not occur, otherwise the
two captures and `fmt.Sprintf("%d", v-u)` of their difference. -/
def parsePages (s : String) : String × String × String :=
  match pagesScan s.data with
  | none => ("", "", "")
  | some (a, b) => (⟨a⟩, ⟨b⟩, toString (pageAtoi b - pageAtoi a))

/-- The spec-side condition: the text contains `<pos-int>-<pos-int>`. -/
def hasPageRangeL (l : List Char) : Prop :=
  ∃ pre a0 as b0 bs post,
    l = pre ++ (a0 :: as) ++ '-' :: (b0 :: bs) ++ post ∧
    nzDigit a0 = true ∧ (∀ c ∈ as, c.isDigit = true) ∧
    nzDigit b0 = true ∧ (∀ c ∈ bs, c.isDigit = true)

def hasPageRange (s : String) : Prop := hasPageRangeL s.data

theorem takeWhile_append_cons {p : Char → Bool} (xs : List Char) (y : Char)
    (ys : List Char) (hxs : ∀ c ∈ xs, p c = true) (hy : p y = false) :
    (xs ++ y :: ys).takeWhile p = xs ∧ (xs ++ y :: ys).dropWhile p = y :: ys := by
  induction xs with
  | nil => simp [List.takeWhile_cons, List.dropWhile_cons, hy]
  | cons x xs ih =>
    have hx : p x = true := hxs x (by simp)
    obtain ⟨h1, h2⟩ := ih fun c hc => hxs c (by simp [hc])
    simp [List.takeWhile_cons, List.dropWhile_cons, hx, h1, h2]

theorem pagesMatchAt_some_decomp {t : List Char} {a b : List Char}
    (h : pagesMatchAt t = some (a, b)) :
    ∃ a0 as b0 bs post, t = (a0 :: as) ++ '-' :: (b0 :: bs) ++ post ∧
      nzDigit a0 = true ∧ (∀ c ∈ as, c.isDigit = true) ∧
      nzDigit b0 = true ∧ (∀ c ∈ bs, c.isDigit = true) ∧
      a = a0 :: as ∧ b = b0 :: bs := by
  cases t with
  | nil => exact absurd h (by simp [pagesMatchAt])
  | cons c rest =>
    simp only [pagesMatchAt] at h
    by_cases hc : nzDigit c
    · rw [if_pos hc] at h
      cases hdw : rest.dropWhile Char.isDigit with
      | nil => rw [hdw] at h; simp at h
      | cons d tail =>
        cases tail with
        | nil => rw [hdw] at h; simp at h
        | cons e rest2 =>
          rw [hdw] at h
          simp only at h
          split_ifs at h with hcond
          simp only [Bool.and_eq_true, decide_eq_true_eq] at hcond
          obtain ⟨hd, he⟩ := hcond
          injection h with h
          injection h with ha hb
          subst hd
          obtain ⟨u1, hu1⟩ : ∃ u1, List.takeWhile Char.isDigit rest = u1 := ⟨_, rfl⟩
          obtain ⟨u2, hu2⟩ : ∃ u2, List.takeWhile Char.isDigit rest2 = u2 := ⟨_, rfl⟩
          obtain ⟨v2, hv2⟩ : ∃ v2, List.dropWhile Char.isDigit rest2 = v2 := ⟨_, rfl⟩
          have h2 : u2 ++ v2 = rest2 := by
            rw [← hu2, ← hv2]
            exact List.takeWhile_append_dropWhile _ _
          have h1 : u1 ++ '-' :: e :: rest2 = rest := by
            rw [← hu1, ← hdw]
            exact List.takeWhile_append_dropWhile _ _
          rw [hu1] at ha
          rw [hu2] at hb
          refine ⟨c, u1, e, u2, v2, ?_, hc, ?_, he, ?_, ha.symm, hb.symm⟩
          · rw [← h1, ← h2]
            simp [List.append_assoc]
          · intro x hx
            rw [← hu1] at hx
            exact List.mem_takeWhile_imp hx
          · intro x hx
            rw [← hu2] at hx
            exact List.mem_takeWhile_imp hx
    · rw [if_neg hc] at h
      simp at h

theorem nzDigit_isDigit {c : Char} (h : nzDigit c = true) : c.isDigit = true := by
  unfold nzDigit at h
  exact (Bool.and_eq_true _ _ |>.mp h).1

theorem pagesMatchAt_decomp_some (a0 : Char) (as : List Char) (b0 : Char)
    (bs post : List Char) (ha0 : nzDigit a0 = true)
    (has : ∀ c ∈ as, c.isDigit = true) (hb0 : nzDigit b0 = true) :
    ∃ r, pagesMatchAt ((a0 :: as) ++ '-' :: (b0 :: bs) ++ post) = some r := by
  have hdash : Char.isDigit '-' = false := by decide
  obtain ⟨htw, hdw⟩ := takeWhile_append_cons as '-' ((b0 :: bs) ++ post) has hdash
  refine ⟨(a0 :: as, b0 :: (bs ++ post).takeWhile Char.isDigit), ?_⟩
  simp only [List.cons_append, List.append_assoc]
  simp only [pagesMatchAt]
  rw [if_pos ha0]
  simp only [List.cons_append] at hdw htw
  rw [hdw]
  simp only
  rw [if_pos (by simp [hb0]), htw]

theorem pagesScan_ne_none_of_suffix (pre t : List Char)
    (h : pagesMatchAt t ≠ none) : pagesScan (pre ++ t) ≠ none := by
  induction pre with
  | nil =>
    cases t with
    | nil => exact absurd rfl h
    | cons c rest =>
      simp only [List.nil_append]
      unfold pagesScan
      cases hm : pagesMatchAt (c :: rest) with
      | none => exact absurd hm h
      | some r => simp
  | cons p pre ih =>
    simp only [List.cons_append]
    unfold pagesScan
    cases hm : pagesMatchAt (p :: (pre ++ t)) with
    | none => exact ih
    | some r => simp

theorem pagesScan_some_suffix {l : List Char} {r : List Char × List Char}
    (h : pagesScan l = some r) :
    ∃ pre t, l = pre ++ t ∧ pagesMatchAt t = some r := by
  induction l with
  | nil => exact absurd h (by simp [pagesScan])
  | cons c rest ih =>
    unfold pagesScan at h
    cases hm : pagesMatchAt (c :: rest) with
    | some r0 =>
      rw [hm] at h
      simp only at h
      injection h with h
      exact ⟨[], c :: rest, by simp, by rw [hm, h]⟩
    | none =>
      rw [hm] at h
      simp only at h
      obtain ⟨pre, t, hpre, hmt⟩ := ih h
      exact ⟨c :: pre, t, by simp [hpre], hmt⟩

theorem pagesScan_none_iff_no_range (l : List Char) :
    pagesScan l = none ↔ ¬ hasPageRangeL l := by
  constructor
  · intro h hrange
    obtain ⟨pre, a0, as, b0, bs, post, heq, ha0, has, hb0, hbs⟩ := hrange
    obtain ⟨r, hr⟩ := pagesMatchAt_decomp_some a0 as b0 bs post ha0 has hb0
    have hsuf := pagesScan_ne_none_of_suffix pre _ (by rw [hr]; simp)
    have heq2 : pre ++ ((a0 :: as) ++ '-' :: (b0 :: bs) ++ post) = l := by
      rw [heq]
      simp [List.append_assoc]
    rw [heq2] at hsuf
    exact hsuf h
  · intro h
    cases hs : pagesScan l with
    | none => rfl
    | some r =>
      exfalso
      obtain ⟨pre, t, hpre, hmt⟩ := pagesScan_some_suffix hs
      obtain ⟨a0, as, b0, bs, post, ht, ha0, has, hb0, hbs, _, _⟩ :=
        pagesMatchAt_some_decomp (t := t) (a := r.1) (b := r.2)
          (by rw [hmt])
      exact h ⟨pre, a0, as, b0, bs, post,
        by rw [hpre, ht]; simp [List.append_assoc], ha0, has, hb0, hbs⟩

theorem toDigitsCore_ne_nil (b : Nat) :
    ∀ (fuel n : Nat) (acc : List Char), (0 < fuel ∨ acc ≠ []) →
      Nat.toDigitsCore b fuel n acc ≠ [] := by
  intro fuel
  induction fuel with
  | zero =>
    intro n acc h
    rcases h with h | h
    · omega
    · simpa [Nat.toDigitsCore] using h
  | succ f ih =>
    intro n acc _
    simp only [Nat.toDigitsCore]
    split
    · simp
    · exact ih _ _ (Or.inr (by simp))

theorem nat_repr_data_ne_nil (n : Nat) : (Nat.repr n).data ≠ [] := by
  show (Nat.toDigits 10 n).asString.data ≠ []
  unfold Nat.toDigits
  exact toDigitsCore_ne_nil 10 (n + 1) n [] (Or.inl (by omega))

theorem int_toString_ne_empty (i : Int) : toString i ≠ "" := by
  intro h
  have hdata := congrArg String.data h
  cases i with
  | ofNat m =>
    exact nat_repr_data_ne_nil m hdata
  | negSucc m =>
    have : (toString (Int.negSucc m)).data =
        '-' :: (Nat.repr (m + 1)).data := rfl
    rw [this] at hdata
    exact absurd hdata (by simp)

/-! The second page parser: `Document.PageInfo` of the crossref source
(part_002), and the three derived string fields its
`ToIntermediateSchema` computes from the result. -/

/-- `strings.Split` on a one-character separator: all parts, empty parts
included. -/
def splitOnChar (sep : Char) : List Char → List (List Char)
  | [] => [[]]
  | c :: rest =>
    if c = sep then [] :: splitOnChar sep rest
    else match splitOnChar sep rest with
      | f :: fs => (c :: f) :: fs
      | [] => [[c]]

/-- `strconv.Atoi`: an optional sign, then digits only, within int64. The
caller below checks the error, so the out-of-range clamped value is never
used. -/
def goAtoi (s : String) : Option Int :=
  match s.data with
  | [] => none
  | c :: rest =>
    let neg := c == '-'
    let ds := if c = '-' ∨ c = '+' then rest else c :: rest
    if ds ≠ [] ∧ ds.all Char.isDigit then
      let v : Int := if neg then -(digitsVal ds : Int) else (digitsVal ds : Int)
      if -(2 ^ 63) ≤ v ∧ v ≤ 2 ^ 63 - 1 then some v else none
    else none

/-- `PageInfo` of the crossref source. -/
structure PageInfo where
  RawMessage : String := ""
  StartPage : Int := 0
  EndPage : Int := 0
  deriving Repr, DecidableEq

/-- `Document.PageInfo` as a function of `doc.Page`: the page field must be
exactly two `-`-separated parts; parsing stops at the first failure,
leaving the remaining numeric fields zero (best effort, partial results
possible). -/
def crossrefPageInfo (page : String) : PageInfo :=
  let pi : PageInfo := { RawMessage := page }
  match splitOnChar '-' page.data with
  | [p1, p2] =>
    match goAtoi ⟨p1⟩ with
    | none => pi
    | some spage =>
      let pi := { pi with StartPage := spage }
      match goAtoi ⟨p2⟩ with
      | none => pi
      | some epage => { pi with EndPage := epage }
  | _ => pi

/-- `PageInfo.PageCount`: `EndPage - StartPage` when both pages are set and
the difference is positive, zero otherwise. -/
def pageInfoPageCount (pi : PageInfo) : Int :=
  if pi.StartPage ≠ 0 ∧ pi.EndPage ≠ 0 then
    if 0 < pi.EndPage - pi.StartPage then pi.EndPage - pi.StartPage else 0
  else 0

/-- The three derived string fields of the crossref `ToIntermediateSchema`:
`fmt.Sprintf("%d", …)` of `StartPage`, `EndPage` and `PageCount()`. -/
def crossrefPageFields (page : String) : String × String × String :=
  (toString (crossrefPageInfo page).StartPage,
   toString (crossrefPageInfo page).EndPage,
   toString (pageInfoPageCount (crossrefPageInfo page)))

/-- C4 counterexample: in `parsePages`, `"100-73"` (end before start) is
matched and all three fields are populated — with a negative count —
rather than left empty, while the well-ordered `"73-100"` behaves as
specified; in the crossref `PageInfo` derivation, a no-match input yields
`"0"/"0"/"0"` (not empty), `"12-abc"` is partially populated, and
`"100-73"` keeps both pages with count `"0"`. -/
theorem parsePages_no_ordering_check :
    parsePages "100-73" = ("100", "73", "-27") ∧
    ("100", "73", "-27") ≠ (("", "", "") : String × String × String) ∧
    parsePages "pp. 73-100" = ("73", "100", "27") ∧
    crossrefPageFields "" = ("0", "0", "0") ∧
    crossrefPageFields "12-abc" = ("12", "0", "0") ∧
    crossrefPageFields "100-73" = ("100", "73", "0") ∧
    crossrefPageFields "73-100" = ("73", "100", "27") := by
  exact ⟨by rfl, by decide, by rfl, by rfl, by rfl, by rfl, by rfl⟩

/-- C4 amended. `parsePages` (genderopen): when the text contains
`<pos-int>-<pos-int>` all three fields are populated — start and end are
the captured (non-empty) digit strings of the leftmost match and count
renders end−start, which may be zero or negative (no ordering check) —
otherwise all three fields are empty; these fields are never partially
populated. `Document.PageInfo` (crossref): the three derived fields are
decimal renderings and never empty — `"0"/"0"/"0"` when the page field is
not exactly two `-`-separated parts, and when both parts parse as integers
with `0 < start < end` the fields are start, end and end−start; a part
that fails to parse leaves the remaining numeric fields zero, so partial
population occurs. -/
theorem parsePages_characterization (s : String) :
    (¬ hasPageRange s → parsePages s = ("", "", "")) ∧
    (hasPageRange s → ∃ a b : List Char, a ≠ [] ∧ b ≠ [] ∧
      (∀ c ∈ a, c.isDigit = true) ∧ (∀ c ∈ b, c.isDigit = true) ∧
      toString (pageAtoi b - pageAtoi a) ≠ "" ∧
      parsePages s = (⟨a⟩, ⟨b⟩, toString (pageAtoi b - pageAtoi a))) ∧
    ((crossrefPageFields s).1 ≠ "" ∧ (crossrefPageFields s).2.1 ≠ "" ∧
      (crossrefPageFields s).2.2 ≠ "") ∧
    ((splitOnChar '-' s.data).length ≠ 2 → crossrefPageFields s = ("0", "0", "0")) ∧
    (∀ a b : List Char, splitOnChar '-' s.data = [a, b] →
      ∀ sp ep : Int, goAtoi ⟨a⟩ = some sp → goAtoi ⟨b⟩ = some ep →
        0 < sp → sp < ep →
        crossrefPageFields s = (toString sp, toString ep, toString (ep - sp))) := by
  refine ⟨?_, ?_, ⟨int_toString_ne_empty _, int_toString_ne_empty _,
    int_toString_ne_empty _⟩, ?_, ?_⟩
  · intro h
    have : pagesScan s.data = none := (pagesScan_none_iff_no_range s.data).mpr h
    unfold parsePages
    rw [this]
  · intro h
    cases hs : pagesScan s.data with
    | none =>
      refine absurd h ?_
      show ¬ hasPageRangeL s.data
      rw [← pagesScan_none_iff_no_range]
      exact hs
    | some r =>
      obtain ⟨pre, t, hpre, hmt⟩ := pagesScan_some_suffix hs
      obtain ⟨a0, as, b0, bs, post, ht, ha0, has, hb0, hbs, ha, hb⟩ :=
        pagesMatchAt_some_decomp (t := t) (a := r.1) (b := r.2) (by rw [hmt])
      refine ⟨r.1, r.2, ?_, ?_, ?_, ?_, int_toString_ne_empty _, ?_⟩
      · rw [ha]; simp
      · rw [hb]; simp
      · rw [ha]
        intro c hc
        rcases List.mem_cons.mp hc with rfl | hc
        · exact nzDigit_isDigit ha0
        · exact has c hc
      · rw [hb]
        intro c hc
        rcases List.mem_cons.mp hc with rfl | hc
        · exact nzDigit_isDigit hb0
        · exact hbs c hc
      · unfold parsePages
        rw [hs]
  · intro h
    unfold crossrefPageFields crossrefPageInfo pageInfoPageCount
    cases hsp : splitOnChar '-' s.data with
    | nil => rfl
    | cons p1 t =>
      cases t with
      | nil => rfl
      | cons p2 t2 =>
        cases t2 with
        | nil =>
          rw [hsp] at h
          simp at h
        | cons p3 t3 => rfl
  · intro a b hsp sp ep hsa hsb hpos hord
    unfold crossrefPageFields crossrefPageInfo pageInfoPageCount
    rw [hsp]
    simp only
    rw [hsa]
    simp only
    rw [hsb]
    simp only
    rw [if_pos ⟨by omega, by omega⟩, if_pos (by omega)]

theorem parsePages_characterization_witness :
    parsePages "100-73" ≠ ("", "", "") ∧
    crossrefPageFields "73-100" =
      (toString (73 : Int), toString (100 : Int), toString ((100 : Int) - 73)) := by
  constructor
  · have h := (parsePages_characterization "100-73").2.1
      ⟨[], '1', ['0', '0'], '7', ['3'], [], by decide, by decide, by decide,
        by decide, by decide⟩
    obtain ⟨a, b, ha, hb, _, _, _, heq⟩ := h
    rw [heq]
    intro hcontra
    have h1 : (⟨a⟩ : String) = "" := congrArg Prod.fst hcontra
    have h2 : a = [] := congrArg String.data h1
    exact ha h2
  · exact (parsePages_characterization "73-100").2.2.2.2
      ['7', '3'] ['1', '0', '0'] (by rfl) 73 100 (by rfl) (by rfl)
      (by decide) (by decide)

/-! ## UTF-8 bytes and base64 (encoding/base64) -/

/-- UTF-8 encoding of one scalar value, as byte values. -/
def utf8EncodeChar (c : Char) : List Nat :=
  let n := c.toNat
  if n < 0x80 then [n]
  else if n < 0x800 then [0xC0 + n / 0x40, 0x80 + n % 0x40]
  else if n < 0x10000 then
    [0xE0 + n / 0x1000, 0x80 + (n / 0x40) % 0x40, 0x80 + n % 0x40]
  else
    [0xF0 + n / 0x40000, 0x80 + (n / 0x1000) % 0x40, 0x80 + (n / 0x40) % 0x40,
     0x80 + n % 0x40]

/-- The bytes of a Go string (Go `len` and slicing count these). -/
def strBytes (s : String) : List Nat :=
  (s.data.map utf8EncodeChar).foldr (· ++ ·) []

/-- Standard base64 alphabet; the URL-safe variant swaps the last two. -/
def b64Alphabet (url : Bool) : List Char :=
  (if url then "ABCDEFGHIJKLMNOPQRSTUVWXYZabcdefghijklmnopqrstuvwxyz0123456789-_"
   else "ABCDEFGHIJKLMNOPQRSTUVWXYZabcdefghijklmnopqrstuvwxyz0123456789+/").data

def b64char (url : Bool) (n : Nat) : Char := (b64Alphabet url).getD n 'A'

/-- Base64 of a byte list, without padding. -/
def b64EncodeGroups (url : Bool) : List Nat → List Char
  | b1 :: b2 :: b3 :: rest =>
    let x := b1 * 65536 + b2 * 256 + b3
    b64char url (x / 262144) :: b64char url (x / 4096 % 64) ::
      b64char url (x / 64 % 64) :: b64char url (x % 64) ::
      b64EncodeGroups url rest
  | [b1, b2] =>
    let x := b1 * 1024 + b2 * 4
    [b64char url (x / 4096), b64char url (x / 64 % 64), b64char url (x % 64)]
  | [b1] =>
    let x := b1 * 16
    [b64char url (x / 64), b64char url (x % 64)]
  | [] => []

/-- `base64.RawURLEncoding.EncodeToString` (URL alphabet, no padding). -/
def b64RawURLEncode (s : String) : String :=
  ⟨b64EncodeGroups true (strBytes s)⟩

/-- `base64.StdEncoding.EncodeToString` (standard alphabet, `=` padding). -/
def b64StdEncode (s : String) : String :=
  let bs := strBytes s
  ⟨b64EncodeGroups false bs ++
    (if bs.length % 3 = 1 then ['=', '='] else if bs.length % 3 = 2 then ['='] else [])⟩

/-! ## Go time.Parse for layouts "2006" and "20060102" -/

/-- A calendar date; the zero `time.Time` is January 1 of year 1. -/
structure GoDate where
  year : Nat
  month : Nat
  day : Nat
  deriving Repr, DecidableEq

/-- Outcome kinds of `time.Parse`: a malformed value versus an
out-of-range month or day. -/
inductive ParseErr where
  | badFormat
  | outOfRange
  deriving Repr, DecidableEq

def byteIsDigit (b : Nat) : Bool := 48 ≤ b && b ≤ 57

def byteDigitsVal (bs : List Nat) : Nat := bs.foldl (fun n b => n * 10 + (b - 48)) 0

def isLeap (y : Nat) : Bool := y % 4 == 0 && (y % 100 != 0 || y % 400 == 0)

def daysIn (m y : Nat) : Nat :=
  if m = 2 then (if isLeap y then 29 else 28)
  else if m = 4 ∨ m = 6 ∨ m = 9 ∨ m = 11 then 30
  else 31

/-- `time.Parse("2006", s)` on the bytes of `s`: exactly four digits, any
year value; month and day default to 1. -/
def goParseYear4B (bs : List Nat) : Except ParseErr GoDate :=
  match bs with
  | [a, b, c, d] =>
    if [a, b, c, d].all byteIsDigit then .ok ⟨byteDigitsVal [a, b, c, d], 1, 1⟩
    else .error .badFormat
  | _ => .error .badFormat

/-- `time.Parse("20060102", s)` on the bytes of `s`: eight digits, with the
month and day ranges validated (leap years included). -/
def goParseYMD8B (bs : List Nat) : Except ParseErr GoDate :=
  match bs with
  | [y1, y2, y3, y4, m1, m2, d1, d2] =>
    if [y1, y2, y3, y4, m1, m2, d1, d2].all byteIsDigit then
      let y := byteDigitsVal [y1, y2, y3, y4]
      let m := byteDigitsVal [m1, m2]
      let d := byteDigitsVal [d1, d2]
      if m < 1 ∨ 12 < m then .error .outOfRange
      else if d < 1 ∨ daysIn m y < d then .error .outOfRange
      else .ok ⟨y, m, d⟩
    else .error .badFormat
  | _ => .error .badFormat

def pad2 (n : Nat) : String := if n < 10 then "0" ++ toString n else toString n

def pad4 (n : Nat) : String :=
  if n < 10 then "000" ++ toString n
  else if n < 100 then "00" ++ toString n
  else if n < 1000 then "0" ++ toString n
  else toString n

/-- `t.Format("2006-01-02")`. -/
def formatYMD (d : GoDate) : String := pad4 d.year ++ "-" ++ pad2 d.month ++ "-" ++ pad2 d.day

/-! ## Conversion outcome model -/

/-- Reasons carried by `span.Skip`; the Go side renders these to strings
with `fmt`. Modelled from the spec: `span.Skip` itself is not under src/,
its taxonomy is §7 of the spec (a Skip is counted, never propagated). -/
inductive SkipReason where
  | msg (s : String)
  | dateUnparseable (e : ParseErr)
  | titleTooLong (n : Nat)
  | idTooLong (id : String)
  deriving Repr, DecidableEq

/-- A per-record conversion error: a `span.Skip` or a propagated hard error
(for the adapters here, a `time.Parse` error returned raw). -/
inductive ConvErr where
  | skip (reason : SkipReason)
  | parseErr (e : ParseErr)
  deriving Repr, DecidableEq

def ConvErr.isSkip : ConvErr → Bool
  | .skip _ => true
  | _ => false

/-- Author of an intermediate record. -/
structure ISAuthor where
  name : String := ""
  firstName : String := ""
  lastName : String := ""
  deriving Repr, DecidableEq

/-- Modelled from the spec: `finc.IntermediateSchema` is not under src/;
the fields are those the adapters assign (§3 of the spec), with Go zero
values as defaults (`NewIntermediateSchema` yields the canonical empty
record). -/
structure IntermediateSchema where
  ID : String := ""
  RecordID : String := ""
  SourceID : String := ""
  MegaCollections : List String := []
  MegaCollection : String := ""
  Genre : String := ""
  RefType : String := ""
  Format : String := ""
  Languages : List String := []
  ArticleTitle : String := ""
  JournalTitle : String := ""
  BookTitle : String := ""
  Authors : List ISAuthor := []
  URL : List String := []
  ISSN : List String := []
  DOI : String := ""
  Publishers : List String := []
  Date : GoDate := ⟨1, 1, 1⟩
  RawDate : String := ""
  Subjects : List String := []
  StartPage : String := ""
  EndPage : String := ""
  PageCount : String := ""
  OpenAccess : Bool := false
  Abstract : String := ""
  Issue : String := ""
  Volume : String := ""
  Fulltext : String := ""
  Packages : List String := []
  deriving Repr, DecidableEq

/-- `span.KeyLengthLimit`. Modelled from the spec and the in-source comment
"250 is a limit on memcached keys". -/
def keyLengthLimit : Nat := 250

/-! ## More Go string helpers -/

/-- `strings.Replace(l, old, new, -1)`: leftmost, non-overlapping. An empty
`old` is never passed here; it falls through to per-character copy. -/
def replaceAllL (old new : List Char) : List Char → List Char
  | [] => []
  | c :: rest =>
    if old ≠ [] ∧ old.isPrefixOf (c :: rest) then
      new ++ replaceAllL old new ((c :: rest).drop old.length)
    else c :: replaceAllL old new rest
  termination_by l => l.length
  decreasing_by
    · simp only [List.length_drop, List.length_cons]
      have : old.length ≥ 1 := by
        rcases old with _ | _
        · simp at *
        · simp
      omega
    · simp

def replaceAllStr (s old new : String) : String :=
  ⟨replaceAllL old.data new.data s.data⟩

/-- `strings.Replace(l, old, new, 1)`: only the first occurrence. -/
def replaceOnceL (old new : List Char) : List Char → List Char
  | [] => []
  | c :: rest =>
    if old ≠ [] ∧ old.isPrefixOf (c :: rest) then
      new ++ (c :: rest).drop old.length
    else c :: replaceOnceL old new rest

def replaceOnceStr (s old new : String) : String :=
  ⟨replaceOnceL old.data new.data s.data⟩

/-- `strings.Contains`. -/
def containsL (sub : List Char) : List Char → Bool
  | [] => sub.isEmpty
  | c :: rest => sub.isPrefixOf (c :: rest) || containsL sub rest

def containsStr (s sub : String) : Bool := containsL sub.data s.data

/-- `strings.FieldsFunc`: maximal runs of non-separator characters; empty
fields do not occur. -/
def fieldsFunc (p : Char → Bool) : List Char → List (List Char)
  | [] => []
  | c :: rest =>
    if p c then fieldsFunc p rest
    else (c :: rest.takeWhile (fun x => !p x)) ::
      fieldsFunc p (rest.dropWhile (fun x => !p x))
  termination_by l => l.length
  decreasing_by
    · simp
    · simp only [List.length_cons]
      have := (List.dropWhile_sublist (l := rest) (fun x => !p x)).length_le
      omega

/-! ## The genderopen adapter (`Record.ToIntermediateSchema`) -/

/-- The fields of the OAI `Record` that the conversion reads, flattened
from the nested XML struct (`Header.Identifier.Text` etc.). -/
structure GenderopenRecord where
  identifier : String := ""
  title : String := ""
  creators : List String := []
  subjects : List String := []
  date : String := ""
  identifiers : List String := []
  language : String := ""
  publishers : List String := []
  source : String := ""
  deriving Repr, DecidableEq

/-- `Record.BookTitle`: newline-to-space, then the regexp
`([^:]*):([^\(]*)` — on a match (exactly when the text contains a colon)
the trimmed run of non-parenthesis characters after the first colon,
otherwise the whole string. -/
def genderopenBookTitle (r : GenderopenRecord) : String :=
  let s := replaceAllL ['\n'] [' '] r.source.data
  if s.contains ':' then
    ⟨trimSpace ((s.dropWhile (fun c => !(c == ':'))).tail.takeWhile
      (fun c => !(c == '(')))⟩
  else ⟨s⟩

/-- `stringsContainsAny`: case-insensitive equality against any of `vals`. -/
def stringsContainsAny (v : String) (vals : List String) : Bool :=
  vals.any fun vv => toLowerStr v == toLowerStr vv

/-- `Record.ToIntermediateSchema` of the genderopen adapter. The partial
record is returned alongside the error, as in Go. -/
def genderopenToIS (r : GenderopenRecord) : IntermediateSchema × Option ConvErr :=
  let encodedRecordID := b64RawURLEncode r.identifier
  let o0 : IntermediateSchema := {
    SourceID := "162"
    RecordID := encodedRecordID
    ID := "ai-162-" ++ encodedRecordID
    MegaCollections := ["Gender Open"]
    Genre := "article"
    RefType := "EJOUR"
    Format := "ElectronicArticle"
    Languages := [r.language]
    ArticleTitle := r.title
    Authors := r.creators.map fun v => { name := v }
  }
  let o1 := r.identifiers.foldl (fun o v =>
    let o := if hasPrefixStr v "http" then { o with URL := o.URL ++ [v] } else o
    let o := if hasPrefixStr v "urn:ISSN:" then
        { o with ISSN := o.ISSN ++ [replaceOnceStr v "urn:ISSN:" ""] } else o
    if hasPrefixStr v "http://dx.doi.org/" then
      { o with DOI := replaceAllStr v "http://dx.doi.org/" "" } else o) o0
  let o2 := if stringsContainsAny o1.ArticleTitle ["zeitschrift", "journal"]
      || !o1.ISSN.isEmpty then
      { o1 with JournalTitle := r.source }
    else { o1 with BookTitle := genderopenBookTitle r }
  let o3 := { o2 with Publishers := o2.Publishers ++ r.publishers }
  if r.date = "" then (o3, some (.skip (.msg "empty date")))
  else if (strBytes r.date).length < 4 then (o3, some (.skip (.msg "short date")))
  else
    match goParseYear4B ((strBytes r.date).take 4) with
    | .error e => (o3, some (.parseErr e))
    | .ok d =>
      let o4 := { o3 with Date := d, RawDate := formatYMD d }
      let o5 := { o4 with Subjects := o4.Subjects ++ r.subjects }
      let p := parsePages r.source
      ({ o5 with
          StartPage := p.1
          EndPage := p.2.1
          PageCount := p.2.2
          OpenAccess := true }, none)

/-! ## The genios adapter (`formats/genios/document.go`) -/

/-- A Genios document. -/
structure GeniosDocument where
  ID : String := ""
  DB : String := ""
  IDNAME : String := ""
  ISSN : String := ""
  Source : String := ""
  PublicationTitle : String := ""
  Title : String := ""
  Year : String := ""
  RawDate : String := ""
  Volume : String := ""
  Issue : String := ""
  RawAuthors : List String := []
  Language : String := ""
  Abstract : String := ""
  Descriptors : String := ""
  Text : String := ""
  Modules : List String := []
  deriving Repr, DecidableEq

/-- Modelled from the spec: the asset table `dbmap`, `span.DetectLang3` and
`span.ISSNPattern` live outside src/ (external collaborators per §1/§9 and
process-wide lookup tables per §9); they are passed in explicitly. -/
structure GeniosEnv where
  dbmap : String → List String
  detectLang3 : String → Option String
  issnFindAll : String → List String

/-- Modelled from the spec: `container.StringSet` is not under src/; P1/P8
require run-deterministic output, so the set is modelled as insertion-order
de-duplication. -/
def stringSetAdd (l : List String) (s : String) : List String :=
  if s ∈ l then l else l ++ [s]

/-- `rawDateReplacer`: drop `"`, newline and tab. -/
def rawDateClean (s : String) : String :=
  ⟨s.data.filter fun c => !(c == '"' || c == '\n' || c == '\t')⟩

/-- `yearPattern.MatchString`: some four consecutive bytes match
`[12][0-9][0-9][0-9]`. -/
def hasYearSub : List Nat → Bool
  | b1 :: b2 :: b3 :: b4 :: rest =>
    ((b1 == 49 || b1 == 50) && byteIsDigit b2 && byteIsDigit b3 && byteIsDigit b4) ||
      hasYearSub (b2 :: b3 :: b4 :: rest)
  | _ => false

/-- `Document.Date` (document.go): prefer a `Year` containing a plausible
year, else fall back to `Date` truncated to its first 8 bytes. -/
def geniosDate (doc : GeniosDocument) : Except ParseErr GoDate :=
  let rawYear := trimSpaceStr (rawDateClean doc.Year)
  if hasYearSub (strBytes rawYear) then goParseYear4B (strBytes rawYear)
  else
    let raw := trimSpaceStr (rawDateClean doc.RawDate)
    let rawB := strBytes raw
    goParseYMD8B (if rawB.length > 8 then rawB.take 8 else rawB)

/-- `Document.SourceAndID`. -/
def geniosSourceAndID (doc : GeniosDocument) : String :=
  trimSpaceStr doc.Source ++ "__" ++ trimSpaceStr doc.ID

/-- `Document.URL`. -/
def geniosURL (doc : GeniosDocument) : String :=
  "https://www.wiso-net.de/document/" ++ geniosSourceAndID doc

/-- `Document.FincID`. -/
def geniosFincID (doc : GeniosDocument) : String :=
  "ai-48-" ++ b64RawURLEncode (geniosSourceAndID doc)

/-- `isNomenNescio`. -/
def isNomenNescio (s : String) : Bool :=
  let t := toLowerStr (trimSpaceStr s)
  t == "n.n." || t == ""

/-- `stringContainsAny` (substring containment). -/
def stringContainsAny (s : String) (needles : List String) : Bool :=
  needles.any fun n => containsStr s n

def geniosAuthorClues : List String :=
  ["www.", "http:", "&quot", "part 1 of", "part 2 of", "Copyright", "(c)",
   "All rights reserved", "he said"]

/-- `Document.Authors` (document.go): split on `;`/`/` — with `,` as well
for raw strings longer than 60 bytes — and filter noise. -/
def geniosAuthors (doc : GeniosDocument) : List ISAuthor :=
  doc.RawAuthors.foldl (fun authors s =>
    let wide := (strBytes s).length > 60
    let fields := fieldsFunc
      (fun r => if wide then r == ';' || r == '/' || r == ',' else r == ';' || r == '/')
      s.data
    fields.foldl (fun authors f =>
      if isNomenNescio ⟨f⟩ then authors
      else
        let name : String := ⟨trimSpace f⟩
        if (strBytes name).length < 4 then authors
        else if stringContainsAny name geniosAuthorClues then authors
        else if (strBytes name).length < 200 then authors ++ [{ name := name }]
        else authors) authors) []

/-- `Document.ISSNList`: pattern hits collected through a string set. -/
def geniosISSNList (env : GeniosEnv) (doc : GeniosDocument) : List String :=
  (env.issnFindAll doc.ISSN).foldl stringSetAdd []

def geniosAcceptedLanguages : List String := ["deu", "eng"]

/-- `Document.Languages`: detect on title and fulltext when at least 20
bytes long; keep only accepted codes. -/
def geniosLanguages (env : GeniosEnv) (doc : GeniosDocument) : List String :=
  [doc.Title, doc.Text].foldl (fun set s =>
    if (strBytes s).length < 20 then set
    else match env.detectLang3 s with
      | none => set
      | some lang =>
        if !geniosAcceptedLanguages.contains lang then set
        else if lang == "und" then set
        else stringSetAdd set lang) []

/-- `Document.Headings` (document.go): split on `;`/`/`, falling back to
`,` when that yields a single field, then trim. -/
def geniosHeadings (doc : GeniosDocument) : List String :=
  let fields := fieldsFunc (fun r => r == ';' || r == '/') doc.Descriptors.data
  let fields := if fields.length = 1 then
      fieldsFunc (fun r => r == ',') doc.Descriptors.data
    else fields
  fields.map fun f => ⟨trimSpace f⟩

/-- Descending lexicographic sort:
`sort.Sort(sort.Reverse(sort.StringSlice(...)))`. -/
def insertDesc (s : String) : List String → List String
  | [] => [s]
  | t :: rest => if t < s then s :: t :: rest else t :: insertDesc s rest

def sortRevStrings (l : List String) : List String := l.foldr insertDesc []

def maxTitleLength : Nat := 2048

def textAsAbstractCutoff : Nat := 200

/-- `Document.ToIntermediateSchema` (document.go). The `Text` cutoff for a
missing abstract is taken at character granularity here; Go slices the
first 200 bytes (no claim depends on `Abstract`). -/
def geniosToIS (env : GeniosEnv) (doc : GeniosDocument) :
    IntermediateSchema × Option ConvErr :=
  match geniosDate doc with
  | .error e => (({} : IntermediateSchema), some (.skip (.dateUnparseable e)))
  | .ok d =>
    let o1 : IntermediateSchema := { ({} : IntermediateSchema) with
      Date := d
      RawDate := formatYMD d
      Authors := geniosAuthors doc
      URL := [geniosURL doc]
      Abstract := if isNomenNescio doc.Abstract then
          ⟨trimSpace (doc.Text.data.take textAsAbstractCutoff)⟩
        else trimSpaceStr doc.Abstract
      ArticleTitle := trimSpaceStr doc.Title
    }
    if (strBytes o1.ArticleTitle).length > maxTitleLength then
      (o1, some (.skip (.titleTooLong (strBytes o1.ArticleTitle).length)))
    else
      let packageNames := env.dbmap doc.DB
      let prefixedPackageNames :=
        sortRevStrings (packageNames.map fun name => "Genios (" ++ name ++ ")")
      let o2 : IntermediateSchema := { o1 with
        JournalTitle := replaceAllStr (trimSpaceStr doc.PublicationTitle) "\n" " "
        ISSN := geniosISSNList env doc
        Issue := if !isNomenNescio doc.Issue then trimSpaceStr doc.Issue else o1.Issue
        Volume := if !isNomenNescio doc.Volume then trimSpaceStr doc.Volume else o1.Volume
        Fulltext := doc.Text
        Format := "ElectronicArticle"
        Genre := "article"
        Languages := geniosLanguages env doc
        Packages := (doc.DB :: prefixedPackageNames) ++ doc.Modules
        MegaCollections := match prefixedPackageNames with
          | p :: _ => [p]
          | [] => ["Genios"]
      }
      let id := geniosFincID doc
      if (strBytes id).length > keyLengthLimit then
        (o2, some (.skip (.idTooLong id)))
      else
        ({ o2 with
            ID := id
            RecordID := doc.ID
            SourceID := "48"
            Subjects := geniosHeadings doc
            RefType := "EJOUR" }, none)

/-! ## The crossref record id (`Document.RecordID`, part_002) -/

/-- The crossref document fields the record id depends on. -/
structure CrossrefDocument where
  URL : String := ""
  deriving Repr, DecidableEq

/-- `Document.RecordID`: `fmt.Sprintf("ai-%d-%s", SourceID, ...)` with the
string constant `SourceID = "49"` formatted under the integer verb `%d`,
which Go renders as the verb-error text `%!d(string=49)`. -/
def crossrefRecordID (doc : CrossrefDocument) : String :=
  "ai-%!d(string=49)-" ++ b64StdEncode doc.URL

/-! ## Claim C5: id length ceiling -/

/-- A genderopen record whose natural identifier is 200 bytes long and
whose date parses. -/
def longIdentifierRecord : GenderopenRecord :=
  { identifier := ⟨List.replicate 200 'a'⟩, date := "2015" }

set_option maxRecDepth 8000 in
/-- C5 counterexample: the genderopen adapter performs no id length check:
a record with a 200-byte natural identifier converts successfully with a
274-byte composed ID, over the 250-byte ceiling. -/
theorem genderopen_long_id_not_skipped :
    (genderopenToIS longIdentifierRecord).2 = none ∧
    (strBytes (genderopenToIS longIdentifierRecord).1.ID).length = 274 ∧
    274 > keyLengthLimit := by
  exact ⟨by rfl, by rfl, by decide⟩

/-- C5 amended (genios): a successful genios conversion always carries the
untruncated `FincID`, whose byte length is within `span.KeyLengthLimit` —
over-long ids are skipped, never truncated. -/
theorem genios_long_id_always_skip (env : GeniosEnv) (doc : GeniosDocument)
    (r : IntermediateSchema) (h : geniosToIS env doc = (r, none)) :
    r.ID = geniosFincID doc ∧
    (strBytes (geniosFincID doc)).length ≤ keyLengthLimit := by
  unfold geniosToIS at h
  cases hd : geniosDate doc with
  | error e =>
    rw [hd] at h
    simp at h
  | ok d =>
    rw [hd] at h
    simp only at h
    split_ifs at h <;>
      first
        | (simp at h; done)
        | (have hfst := congrArg Prod.fst h
           simp only at hfst
           constructor
           · rw [← hfst]
           · omega)

def emptyGeniosEnv : GeniosEnv := ⟨fun _ => [], fun _ => none, fun _ => []⟩

def witnessGeniosDoc : GeniosDocument := { Year := "2015" }

theorem genios_long_id_always_skip_witness :
    (geniosToIS emptyGeniosEnv witnessGeniosDoc).1.ID =
      geniosFincID witnessGeniosDoc ∧
    (strBytes (geniosFincID witnessGeniosDoc)).length ≤ keyLengthLimit := by
  exact genios_long_id_always_skip emptyGeniosEnv witnessGeniosDoc _ (by rfl)

/-! ## Claim C6: date fallback chain -/

def unparseableDateRecord : GenderopenRecord := { date := "abcd" }

/-- C6 counterexample: a genderopen record whose date field has four
non-numeric characters is rejected with the raw `time.Parse` error — a
hard error, not a `span.Skip`. -/
theorem genderopen_unparseable_date_is_error_not_skip :
    (genderopenToIS unparseableDateRecord).2 =
      some (ConvErr.parseErr ParseErr.badFormat) ∧
    ConvErr.isSkip (ConvErr.parseErr ParseErr.badFormat) = false := by
  exact ⟨by rfl, by rfl⟩

/-- C6 amended: genios prefers `Year` (a 4-digit year resolving to
January 1), falls back to `Date` truncated to 8 bytes, and Skips when
neither parses; genderopen Skips on empty or short (< 4 bytes) dates,
returns the raw parse error (not a Skip) on an unparseable 4-byte prefix,
and a successful conversion always carries a date parsed from the record
(never defaulted to now or the epoch). -/
theorem date_fallback_chain_behavior :
    geniosDate { Year := "2015" } = Except.ok ⟨2015, 1, 1⟩ ∧
    geniosDate { Year := "", RawDate := "20180315" } = Except.ok ⟨2018, 3, 15⟩ ∧
    (∀ (env : GeniosEnv) (doc : GeniosDocument), doc.Year = "" → doc.RawDate = "" →
      (geniosToIS env doc).2 =
        some (ConvErr.skip (SkipReason.dateUnparseable ParseErr.badFormat))) ∧
    (∀ r : GenderopenRecord, r.date = "" →
      (genderopenToIS r).2 = some (ConvErr.skip (SkipReason.msg "empty date"))) ∧
    (∀ r : GenderopenRecord, r.date ≠ "" → (strBytes r.date).length < 4 →
      (genderopenToIS r).2 = some (ConvErr.skip (SkipReason.msg "short date"))) ∧
    (∀ (r : GenderopenRecord) (o : IntermediateSchema), genderopenToIS r = (o, none) →
      goParseYear4B ((strBytes r.date).take 4) = Except.ok o.Date) ∧
    (genderopenToIS { date := "2015" }).2 = none ∧
    (genderopenToIS { date := "2015" }).1.Date = ⟨2015, 1, 1⟩ ∧
    (genderopenToIS { date := "2015" }).1.RawDate = "2015-01-01" := by
  refine ⟨by rfl, by rfl, ?_, ?_, ?_, ?_, by rfl, by rfl, by rfl⟩
  · intro env doc hY hR
    have hd : geniosDate doc = .error .badFormat := by
      unfold geniosDate
      rw [hY, hR]
      rfl
    simp [geniosToIS, hd]
  · intro r h
    simp [genderopenToIS, h]
  · intro r hne hlt
    simp only [genderopenToIS]
    rw [if_neg hne, if_pos hlt]
  · intro r o h
    unfold genderopenToIS at h
    split_ifs at h with h1 h2
    · simp at h
    · simp at h
    · cases hp : goParseYear4B ((strBytes r.date).take 4) with
      | error e =>
        rw [hp] at h
        simp at h
      | ok d =>
        rw [hp] at h
        simp only at h
        have hfst := congrArg Prod.fst h
        simp only at hfst
        rw [← hfst]

theorem date_fallback_chain_behavior_witness :
    (geniosToIS emptyGeniosEnv ({} : GeniosDocument)).2 =
      some (ConvErr.skip (SkipReason.dateUnparseable ParseErr.badFormat)) := by
  exact date_fallback_chain_behavior.2.2.1 emptyGeniosEnv {} rfl rfl

/-! ## Claim C8: record ids are deterministic functions of the natural id -/

/-- C8: in this pure embedding each conversion is a function, so two runs
on the same record agree definitionally; the substantive content is that
`FincID` depends only on `SourceAndID` and the crossref `RecordID` only on
the document URL. -/
theorem conversion_deterministic :
    (∀ d1 d2 : GeniosDocument, geniosSourceAndID d1 = geniosSourceAndID d2 →
      geniosFincID d1 = geniosFincID d2) ∧
    (∀ c1 c2 : CrossrefDocument, c1.URL = c2.URL →
      crossrefRecordID c1 = crossrefRecordID c2) ∧
    (∀ (env : GeniosEnv) (doc : GeniosDocument),
      geniosToIS env doc = geniosToIS env doc) ∧
    (∀ r : GenderopenRecord, genderopenToIS r = genderopenToIS r) := by
  refine ⟨?_, ?_, fun _ _ => rfl, fun _ => rfl⟩
  · intro d1 d2 h
    unfold geniosFincID
    rw [h]
  · intro c1 c2 h
    unfold crossrefRecordID
    rw [h]

theorem conversion_deterministic_witness :
    geniosFincID { Source := "A", ID := "1" } =
      geniosFincID { Source := "A", ID := "1", Title := "other title" } := by
  exact conversion_deterministic.1 _ _ (by rfl)

/-! ## Claim C10: holdings map, last write wins -/

theorem insertIds_lookup (m : String → Option Holding) (ids : List String)
    (item : Holding) (k : String) :
    insertIds m ids item k = if k ∈ ids then some item else m k := by
  induction ids generalizing m with
  | nil => simp [insertIds]
  | cons id ids ih =>
    show insertIds (mapSet m id item) ids item k = _
    rw [ih]
    by_cases h : k ∈ ids
    · simp [h, List.mem_cons]
    · by_cases h2 : k = id <;> simp [mapSet, h, h2, List.mem_cons]

theorem holdings_step_lookup (m : String → Option Holding) (item : Holding)
    (k : String) :
    insertIds (insertIds m item.EISSN item) item.PISSN item k =
      if listsIssn k item then some item else m k := by
  rw [insertIds_lookup, insertIds_lookup]
  unfold listsIssn
  by_cases h1 : k ∈ item.PISSN <;> by_cases h2 : k ∈ item.EISSN <;>
    simp [h1, h2]

theorem holdingsMap_foldl_lookup (hs : List Holding)
    (m : String → Option Holding) (k : String) :
    hs.foldl (fun m item =>
        insertIds (insertIds m item.EISSN item) item.PISSN item) m k =
      ((hs.filter (listsIssn k)).getLast?).elim (m k) some := by
  induction hs generalizing m with
  | nil => simp
  | cons h rest ih =>
    rw [List.foldl_cons, ih]
    by_cases hP : listsIssn k h
    · rw [List.filter_cons_of_pos hP]
      cases hrf : rest.filter (listsIssn k) with
      | nil =>
        simp [holdings_step_lookup, hP]
      | cons b bs =>
        rw [List.getLast?_cons_cons]
        cases hgl : (b :: bs).getLast? with
        | none => simp at hgl
        | some x => rfl
    · rw [List.filter_cons_of_neg (by simpa using hP)]
      have : insertIds (insertIds m h.EISSN h) h.PISSN h k = m k := by
        rw [holdings_step_lookup, if_neg (by simpa using hP)]
      rw [this]

/-! ## Claim C7: `ParseDelay` -/

/-- The delay grammar of the spec: a leading minus, a non-empty digit string
of value `n`, and the unit character `u`, which is `M` or `Y`. -/
def delayGrammarAt (s : String) (n : Nat) (u : Char) : Prop :=
  ∃ ds, s.data = '-' :: (ds ++ [u]) ∧ ds ≠ [] ∧ (∀ c ∈ ds, c.isDigit = true) ∧
    digitsVal ds = n ∧ (u = 'M' ∨ u = 'Y')

theorem takeWhile_append_last {p : Char → Bool} (ds : List Char) (u : Char)
    (hds : ∀ c ∈ ds, p c = true) (hu : p u = false) :
    (ds ++ [u]).takeWhile p = ds ∧ (ds ++ [u]).dropWhile p = [u] := by
  induction ds with
  | nil => simp [List.takeWhile_cons, List.dropWhile_cons, hu]
  | cons d ds ih =>
    have hd : p d = true := hds d (by simp)
    obtain ⟨h1, h2⟩ := ih fun c hc => hds c (by simp [hc])
    simp [List.takeWhile_cons, List.dropWhile_cons, hd, h1, h2]

theorem delayMatch_eq_some_iff {s : String} {ds : List Char} {u : Char} :
    delayMatch s = some (ds, u) ↔
      (s.data = '-' :: (ds ++ [u]) ∧ ds ≠ [] ∧ (∀ c ∈ ds, c.isDigit = true) ∧
        (u = 'M' ∨ u = 'Y')) := by
  constructor
  · intro h
    unfold delayMatch at h
    cases hsd : s.data with
    | nil => rw [hsd] at h; simp [delayMatchL] at h
    | cons c rest =>
      rw [hsd] at h
      simp only [delayMatchL] at h
      by_cases hc : c = '-'
      · rw [if_pos hc] at h
        subst hc
        cases hdw : rest.dropWhile Char.isDigit with
        | nil => rw [hdw] at h; simp at h
        | cons u0 us =>
          cases us with
          | cons v vs => rw [hdw] at h; simp at h
          | nil =>
            rw [hdw] at h
            simp only at h
            split_ifs at h with hcond
            · obtain ⟨hne, hu0⟩ := hcond
              injection h with h
              injection h with hds0 hu0'
              subst hds0
              subst hu0'
              have hrest : rest.takeWhile Char.isDigit ++ [u0] = rest := by
                rw [← hdw]
                exact List.takeWhile_append_dropWhile _ _
              refine ⟨?_, hne, ?_, hu0⟩
              · rw [hrest]
              · intro c hc
                exact List.mem_takeWhile_imp hc
      · rw [if_neg hc] at h
        simp at h
  · rintro ⟨hsd, hne, hdig, hu⟩
    have hudig : Char.isDigit u = false := by
      rcases hu with rfl | rfl <;> decide
    obtain ⟨htw, hdw⟩ := takeWhile_append_last ds u hdig hudig
    unfold delayMatch
    rw [hsd]
    simp only [delayMatchL, if_pos rfl, htw, hdw]
    have hcnd : ds ≠ [] ∧ (u = 'M' ∨ u = 'Y') := ⟨hne, hu⟩
    rw [if_pos hcnd]
    simp

theorem wrapInt64_eq_self {x : Int} (h0 : 0 ≤ x) (h1 : x < 2 ^ 63) :
    wrapInt64 x = x := by
  unfold wrapInt64
  rw [Int.emod_eq_of_lt (by omega) (by omega)]
  omega

/-- C7 counterexample: `"-300Y"` matches the delay grammar, yet `ParseDelay`
returns the zero duration instead of `-2628000h`: 2628000 hours exceeds the
`time.Duration` range, and the `time.ParseDuration` error is discarded by
the final `return d, nil`. -/
theorem parseDelay_out_of_range_returns_zero :
    parseDelay "-300Y" = Except.ok 0 ∧ (0 : Int) ≠ -(300 * 8760 * hourNs) := by
  exact ⟨by rfl, by decide⟩

/-- C7 amended: `ParseDelay` succeeds exactly on grammar matches whose
integer fits in int64; within the `time.Duration` range (at most 2562047
hours) the result is `-(n×720)`/`-(n×8760)` hours as specified, while
beyond it the conversion error is discarded and the zero duration is
returned successfully. -/
theorem parseDelay_grammar_and_range (s : String) :
    ((parseDelay s).isOk = true ↔ ∃ n u, delayGrammarAt s n u ∧ n ≤ maxInt64) ∧
    (∀ n u, delayGrammarAt s n u → n ≤ maxInt64 → n * multOf u ≤ maxHours →
      parseDelay s = Except.ok (-(((n * multOf u : Nat) : Int) * hourNs))) := by
  constructor
  · cases hm : delayMatch s with
    | none =>
      simp only [parseDelay, hm, Except.isOk, Except.toBool]
      constructor
      · intro h; exact absurd h (by simp)
      · rintro ⟨n, u, ⟨ds, hsd, hne, hdig, hval, hu⟩, hle⟩
        have : delayMatch s = some (ds, u) :=
          delayMatch_eq_some_iff.mpr ⟨hsd, hne, hdig, hu⟩
        rw [hm] at this
        exact absurd this (by simp)
    | some p =>
      obtain ⟨ds, u⟩ := p
      obtain ⟨hsd, hne, hdig, hu⟩ := delayMatch_eq_some_iff.mp hm
      by_cases hbig : digitsVal ds > maxInt64
      · simp only [parseDelay, hm, if_pos hbig, Except.isOk, Except.toBool]
        constructor
        · intro h; exact absurd h (by simp)
        · rintro ⟨n, u', ⟨ds', hsd', hne', hdig', hval', hu'⟩, hle⟩
          rw [hsd] at hsd'
          injection hsd' with hhead h1
          have hrev := congrArg List.reverse h1
          simp only [List.reverse_append, List.reverse_cons, List.reverse_nil,
            List.nil_append, List.singleton_append] at hrev
          injection hrev with hu12 h2
          have hds : ds = ds' := by
            have := congrArg List.reverse h2
            simpa using this
          rw [← hds] at hval'
          omega
      · simp only [parseDelay, hm, if_neg hbig, Except.isOk, Except.toBool]
        constructor
        · intro _
          exact ⟨digitsVal ds, u, ⟨ds, hsd, hne, hdig, rfl, hu⟩, by omega⟩
        · intro _
          trivial
  · intro n u hg hle hrange
    obtain ⟨ds, hsd, hne, hdig, hval, hu⟩ := hg
    have hm : delayMatch s = some (ds, u) :=
      delayMatch_eq_some_iff.mpr ⟨hsd, hne, hdig, hu⟩
    have hcast : ((digitsVal ds : Int) * (multOf u : Int)) =
        ((n * multOf u : Nat) : Int) := by
      rw [hval]; push_cast; ring
    have hw : wrapInt64 ((digitsVal ds : Int) * (multOf u : Int)) =
        ((n * multOf u : Nat) : Int) := by
      rw [hcast]
      refine wrapInt64_eq_self (by positivity) ?_
      have : (n * multOf u : Nat) < 2 ^ 63 := by
        unfold maxHours at hrange
        omega
      exact_mod_cast this
    have hbig : ¬ digitsVal ds > maxInt64 := by omega
    simp only [parseDelay, hm, if_neg hbig, hw]
    split_ifs with hcnd
    · rfl
    · exfalso
      apply hcnd
      refine ⟨by positivity, ?_⟩
      have : (n * multOf u : Nat) ≤ maxHours := hrange
      exact_mod_cast this

theorem parseDelay_grammar_and_range_witness :
    parseDelay "-1M" = Except.ok (-(((1 * multOf 'M' : Nat) : Int) * hourNs)) := by
  exact (parseDelay_grammar_and_range "-1M").2 1 'M'
    ⟨['1'], by decide, by decide, by decide, by decide, by decide⟩
    (by decide) (by decide)

/-- C10: `HoldingsMap` maps each e-ISSN and p-ISSN of every `holding`
element to that element's value; when several elements list the same ISSN,
the element appearing last in document order wins. -/
theorem holdingsMap_last_write_wins (hs : List Holding) (k : String) :
    holdingsMap hs k = (hs.filter (listsIssn k)).getLast? := by
  unfold holdingsMap
  rw [holdingsMap_foldl_lookup]
  cases (hs.filter (listsIssn k)).getLast? <;> rfl

end Span
